import Mathlib

/-!
Verification of the range-synchronisation engine of the `separate-code`
editor extension (src/src/extension.ts).  The TypeScript source is shallowly
embedded below: positions, ranges, the document model, the forward
reconciliation pass (`processPendingChanges` together with
`applyChangesToOriginalRanges`), the reverse reconciliation pass
(`extractedToOriginal`), and the session lifecycle (`activate`'s validation
and `closeExistingTempTab`).  Buffers are plain strings; machine details
(UTF-16 units vs. code points) coincide on the ASCII inputs used here.
-/

/-- vscode `Position`: a (line, character) pair.  vscode validates that both
coordinates are non-negative and throws otherwise; the model is total over
`Int`, and every concrete input used below stays in the valid region. -/
structure Pos where
  line : Int
  character : Int
deriving DecidableEq, Repr

/-- vscode `Position.isBefore`: ordered by line, then character. -/
def posLt (p q : Pos) : Prop :=
  p.line < q.line ∨ (p.line = q.line ∧ p.character < q.character)

/-- vscode `Position.isBeforeOrEqual`. -/
def posLe (p q : Pos) : Prop :=
  p.line < q.line ∨ (p.line = q.line ∧ p.character ≤ q.character)

instance (p q : Pos) : Decidable (posLt p q) := by
  unfold posLt; infer_instance

instance (p q : Pos) : Decidable (posLe p q) := by
  unfold posLe; infer_instance

/-- vscode `Position.translate(lineDelta, characterDelta)`: adds the deltas
componentwise (vscode additionally rejects negative results). -/
def posTranslate (p : Pos) (lineDelta charDelta : Int) : Pos :=
  ⟨p.line + lineDelta, p.character + charDelta⟩

/-- vscode `Range`: a start and an end position.  `end` is a Lean keyword, so
the field is called `stop`. -/
structure SRange where
  start : Pos
  stop : Pos
deriving DecidableEq, Repr

/-- The vscode `Range` constructor: if `start` is not before or equal to
`end`, the two positions are swapped. -/
def mkRange (a b : Pos) : SRange :=
  if posLe a b then ⟨a, b⟩ else ⟨b, a⟩

/-- A range is valid when its start does not come after its end; every range
built by the vscode constructor satisfies this. -/
def rangeValid (r : SRange) : Prop := posLe r.start r.stop

instance (r : SRange) : Decidable (rangeValid r) := by
  unfold rangeValid; infer_instance

/-- Comparator used by `newRanges.sort((a, b) => a.start.compareTo(b.start))`. -/
def startLe (a b : SRange) : Prop := posLe a.start b.start

instance (a b : SRange) : Decidable (startLe a b) := by
  unfold startLe; infer_instance

instance : IsTotal SRange startLe :=
  ⟨fun a b => by unfold startLe posLe; omega⟩

instance : IsTrans SRange startLe :=
  ⟨fun a b c => by unfold startLe posLe; omega⟩

/-- Disjointness relation of the Range Set invariant: the first range ends
at or before the second starts. -/
def rangeDisj (a b : SRange) : Prop := posLe a.stop b.start

instance (a b : SRange) : Decidable (rangeDisj a b) := by
  unfold rangeDisj; infer_instance

/-! ## The document model

A buffer is a string.  Positions are resolved against the buffer's lines
exactly as vscode does: the offset of `(line, character)` is the sum of the
lengths (plus one for each newline) of the preceding lines, plus the
character column.  All splitting below is hand-rolled structural recursion
so that concrete states evaluate inside the kernel. -/

/-- Splits a character list at every newline, like JavaScript
`str.split('\n')` (the empty string yields one empty piece). -/
def splitLinesAux : List Char → List Char → List (List Char)
  | [], acc => [acc.reverse]
  | c :: cs, acc =>
    if c = '\n' then acc.reverse :: splitLinesAux cs []
    else splitLinesAux cs (c :: acc)

/-- JavaScript `s.split('\n')`. -/
def splitLines (s : String) : List String :=
  (splitLinesAux s.data []).map (fun l => ⟨l⟩)

/-- Offset of the first character of `line` within the document. -/
def lineStartOffset (doc : String) (line : Nat) : Nat :=
  ((splitLines doc).take line).foldl (fun a l => a + l.length + 1) 0

/-- Offset of a position within the document (vscode `document.offsetAt`;
negative coordinates, which vscode rejects, clamp to zero). -/
def posToOffset (doc : String) (p : Pos) : Nat :=
  lineStartOffset doc p.line.toNat + p.character.toNat

/-- vscode `document.getText(range)`. -/
def getTextInRange (doc : String) (r : SRange) : String :=
  ⟨((doc.data.drop (posToOffset doc r.start)).take
      (posToOffset doc r.stop - posToOffset doc r.start))⟩

/-- Replaces the slice of `doc` denoted by `r` with `text`. -/
def replaceRange (doc : String) (r : SRange) (text : String) : String :=
  ⟨(doc.data.take (posToOffset doc r.start)) ++ text.data ++
    (doc.data.drop (posToOffset doc r.stop))⟩

/-- Inserts an edit into a list kept in descending order of start offset. -/
def insertEditDesc (doc : String) (e : SRange × String) :
    List (SRange × String) → List (SRange × String)
  | [] => [e]
  | x :: xs =>
    if posToOffset doc x.1.start ≤ posToOffset doc e.1.start then e :: x :: xs
    else x :: insertEditDesc doc e xs

/-- Models `vscode.workspace.applyEdit` for a `WorkspaceEdit` holding one
replacement per range: all ranges are interpreted in the original document,
so they are applied back-to-front. -/
def applyEditsToDoc (doc : String) (edits : List (SRange × String)) : String :=
  (edits.foldr (insertEditDesc doc) []).foldl
    (fun d e => replaceRange d e.1 e.2) doc

/-- Number of newline characters in a string:
`(text.match(/\n/g) || []).length`. -/
def countNL (s : String) : Nat := (s.data.filter (fun c => c = '\n')).length

/-- Prefix test on character lists (no library `isInfixOf` is available in
this toolchain, so containment is spelled out structurally). -/
def charsPrefixOf : List Char → List Char → Bool
  | [], _ => true
  | _ :: _, [] => false
  | a :: as, b :: bs => a == b && charsPrefixOf as bs

/-- Containment test on character lists. -/
def charsIncludes (sub : List Char) : List Char → Bool
  | [] => sub.isEmpty
  | c :: cs => charsPrefixOf sub (c :: cs) || charsIncludes sub cs

/-- JavaScript `hay.includes(sub)` (substring containment). -/
def strIncludes (hay sub : String) : Bool := charsIncludes sub.data hay.data

/-- JavaScript `s.trim()`. -/
def strTrim (s : String) : String :=
  ⟨((s.data.dropWhile Char.isWhitespace).reverse.dropWhile
      Char.isWhitespace).reverse⟩

/-- Modelled from the spec: the Mirror Content Derivation, the texts joined
with a single newline between consecutive entries and none after the last.
This is the spec-side definition against which the code's concatenation
loops are compared. -/
def specJoin : List String → String
  | [] => ""
  | [t] => t
  | t :: rest => t ++ "\n" ++ specJoin rest

/-- Mirror Content Derivation applied to a document and a range set. -/
def deriveMirror (doc : String) (ranges : List SRange) : String :=
  specJoin (ranges.map (getTextInRange doc))

/-! ## Pending changes and the forward reconciler

`applyChangesToOriginalRanges` (extension.ts lines 514-580) and
`processPendingChanges` (lines 335-378). -/

/-- One queued raw edit from `onDidChangeTextDocument`: the listener pushes
`range`, `text`, `rangeOffset` and `rangeLength` (the two offsets are carried
but never read by `applyChangesToOriginalRanges`). -/
structure PendingChange where
  range : SRange
  text : String
  rangeOffset : Nat
  rangeLength : Nat
deriving DecidableEq, Repr

/-- The body of the `newRanges.map(...)` callback inside the
`for (const change of changes)` loop of `applyChangesToOriginalRanges`
(lines 526-556), for a single change applied to a single range. -/
def translateRangeForChange (change : PendingChange) (r : SRange) : SRange :=
  let changeStart := change.range.start
  let changeEnd := change.range.stop
  let newStart := r.start
  let newEnd := r.stop
  if posLe changeStart newEnd ∧ posLe newStart changeEnd then
    -- the change completely covers or intersects this range
    let newStart := if posLt changeStart newStart then changeStart else newStart
    let newEnd :=
      if posLt newEnd changeEnd then
        posTranslate changeEnd 0 (change.text.length : Int)
      else
        posTranslate changeEnd 0
          ((change.text.length : Int) - (changeEnd.character - changeStart.character))
    mkRange newStart newEnd
  else if posLt changeEnd newStart then
    -- the change is to the left of the range
    let lineDelta := (countNL change.text : Int) - (changeEnd.line - changeStart.line)
    let charDelta :=
      (change.text.length : Int) - (changeEnd.character - changeStart.character)
    mkRange (posTranslate newStart lineDelta charDelta)
      (posTranslate newEnd lineDelta charDelta)
  else
    mkRange newStart newEnd

/-- The merge loop of `applyChangesToOriginalRanges` (lines 562-576):
`current` is the running range, the remaining sorted ranges are coalesced
into it while they start at or before its end. -/
def mergeLoop (current : SRange) : List SRange → List SRange
  | [] => [current]
  | next :: rest =>
    if posLe next.start current.stop then
      let newEnd := if posLe next.stop current.stop then current.stop else next.stop
      mergeLoop (mkRange current.start newEnd) rest
    else
      current :: mergeLoop next rest

/-- Merge pass over an already sorted range list (lines 561-577). -/
def mergeRanges : List SRange → List SRange
  | [] => []
  | c :: rest => mergeLoop c rest

/-- extension.ts `applyChangesToOriginalRanges` (lines 514-580): every change
is applied to every range, then the ranges are sorted by start and
intersecting ones are merged.  The TypeScript signature also receives
`originalDoc`, which the body never reads. -/
def applyChangesToOriginalRanges (originalRanges : List SRange)
    (changes : List PendingChange) (_originalDoc : String) : List SRange :=
  let newRanges :=
    changes.foldl (fun rs c => rs.map (translateRangeForChange c)) originalRanges
  mergeRanges (List.insertionSort startLe newRanges)

/-- The concatenation loop of `processPendingChanges` (lines 349-353):
`newExtractedText += txt + (i < newRanges.length - 1 ? '\n' : '')`, rendered
with the loop index `i` and the captured length `n` made explicit. -/
def buildExtractedAux (doc : String) (n : Nat) : Nat → List SRange → String
  | _, [] => ""
  | i, r :: rest =>
    getTextInRange doc r ++ (if i < n - 1 then "\n" else "") ++
      buildExtractedAux doc n (i + 1) rest

/-- New mirror content computed by the forward pass. -/
def buildExtractedText (doc : String) (ranges : List SRange) : String :=
  buildExtractedAux doc ranges.length 0 ranges

/-- The mutable state closed over by `syncDocuments` for one session:
both buffers, `originalRanges`, `pendingChanges`, the `isUpdating`
reentrancy flag, and the closed flags consulted by the guards. -/
structure SyncState where
  source : String
  mirror : String
  ranges : List SRange
  pending : List PendingChange
  isUpdating : Bool
  sourceClosed : Bool
  tabClosed : Bool
deriving DecidableEq, Repr

/-- extension.ts `processPendingChanges` (lines 335-378), the forward
reconciliation pass.  `editThrows` models the awaited
`vscode.workspace.applyEdit` (or the full-range computation on the mirror
document) raising after the reentrancy flag has been set; the code has no
try/finally, so the exception propagates with the state at the throw point
(`Except.error`).  On success the mirror receives the full-buffer
replacement and the flag is cleared, in source order. -/
def processPendingChanges (st : SyncState) (editThrows : Bool) :
    Except SyncState SyncState :=
  if st.sourceClosed || st.pending.isEmpty then
    .ok st
  else
    let changes := st.pending
    let st₁ := { st with pending := [] }
    let newRanges := applyChangesToOriginalRanges st₁.ranges changes st₁.source
    let newExtractedText := buildExtractedText st₁.source newRanges
    let st₂ := { st₁ with isUpdating := true }
    if editThrows then
      .error st₂
    else
      .ok { st₂ with
              mirror := newExtractedText
              ranges := newRanges
              isUpdating := false }

/-! ## The reverse reconciler

`extractedToOriginal` (extension.ts lines 417-475). -/

/-- The inner `for (const range of tempTab.originalRanges)` search (lines
440-446): the first tracked range whose current source text contains the
mirror line as a substring. -/
def findCorresponding (doc : String) (line : String) :
    List SRange → Option SRange
  | [] => none
  | r :: rest =>
    if strIncludes (getTextInRange doc r) line then some r
    else findCorresponding doc line rest

/-- The per-line range update (lines 452-461): since split pieces contain no
newline the computed `lineDelta` is the newline count of the piece, and the
end is translated by the character-length difference. -/
def updateReverseRange (r : SRange) (newLine : String) : SRange :=
  let lineDelta := (countNL newLine : Int)
  let lines := splitLines newLine
  let lastLineText := if lines.length > 1 then lines.getLastD newLine else newLine
  let charDelta :=
    (lastLineText.length : Int) - (r.stop.character - r.start.character)
  mkRange r.start (posTranslate r.stop lineDelta charDelta)

/-- The outer `for (let i = 0; i < newLines.length; i++)` loop (lines
435-464), accumulating the workspace edits and the new range set in order. -/
def reverseLoop (doc : String) (ranges : List SRange) :
    List String → List (SRange × String) × List SRange
  | [] => ([], [])
  | line :: rest =>
    let found := findCorresponding doc line ranges
    let acc := reverseLoop doc ranges rest
    match found with
    | some r => ((r, line) :: acc.1, updateReverseRange r line :: acc.2)
    | none => acc

/-- Edits and new ranges computed by the reverse pass from the mirror's full
text. -/
def reverseCompute (doc : String) (ranges : List SRange) (mirror : String) :
    List (SRange × String) × List SRange :=
  reverseLoop doc ranges (splitLines mirror)

/-- extension.ts `extractedToOriginal` (lines 417-475), the reverse
reconciliation pass.  After the guards the flag is raised; `editThrows`
models `originalDoc.getText` or the awaited `applyEdit` raising after that
point (again no try/finally).  On success the computed edits are applied to
the source atomically, the range set is replaced, and the flag is
cleared. -/
def extractedToOriginal (st : SyncState) (editThrows : Bool) :
    Except SyncState SyncState :=
  if st.tabClosed || st.isUpdating then
    .ok st
  else
    let st₁ := { st with isUpdating := true }
    if editThrows then
      .error st₁
    else
      let acc := reverseCompute st₁.source st₁.ranges st₁.mirror
      let newSource := applyEditsToDoc st₁.source acc.1
      .ok { st₁ with
              source := newSource
              ranges := acc.2
              isUpdating := false }

/-! ## Session lifecycle

The validation and seeding in `activate` (lines 86-132) and
`closeExistingTempTab` (lines 240-275). -/

/-- extension.ts `TempTab` (lines 26-34).  `disposed` records that
`disposables.forEach(d => d.dispose())` has run, i.e. the session's
listeners no longer fire. -/
structure TempTab where
  tempFileName : String
  originalUri : String
  disposed : Bool
  isProgrammaticSave : Bool
  isClosed : Bool
  originalRanges : List SRange
deriving DecidableEq, Repr

/-- The `activeTempTabs` map, keyed by the source document's URI. -/
abbrev Registry := List (String × TempTab)

/-- The temp-file storage: file names with their written contents. -/
abbrev FileStore := List (String × String)

/-- `activeTempTabs.get(uri)`. -/
def registryLookup (reg : Registry) (uri : String) : Option TempTab :=
  (List.find? (fun e => e.1 == uri) reg).map (fun e => e.2)

/-- `activeTempTabs.delete(uri)`. -/
def registryDelete (reg : Registry) (uri : String) : Registry :=
  List.filter (fun e => e.1 != uri) reg

/-- `activeTempTabs.set(uri, tab)`. -/
def registrySet (reg : Registry) (uri : String) (tab : TempTab) : Registry :=
  (uri, tab) :: registryDelete reg uri

/-- `fs.unlinkSync`-style removal of a file by name. -/
def fileDelete (fs : FileStore) (name : String) : FileStore :=
  List.filter (fun f => f.1 != name) fs

/-- extension.ts `closeExistingTempTab` (lines 240-275): if the recorded tab
is not already closed, its listeners are disposed, its backing file is
deleted, it is marked closed and it is removed from the registry.  The third
component is the final state of the superseded tab. -/
def closeExistingTempTab (reg : Registry) (fs : FileStore) (uri : String) :
    Registry × FileStore × Option TempTab :=
  match registryLookup reg uri with
  | none => (reg, fs, none)
  | some tab =>
    if tab.isClosed then (reg, fs, some tab)
    else
      let tab' := { tab with disposed := true, isClosed := true }
      (registryDelete reg uri, fileDelete fs tab.tempFileName, some tab')

/-- The validation loop of the `separate` command (lines 86-96), with the
loop position made explicit: `n` is the length of the full pre-validation
list, and the separator is appended after a kept range exactly when its
index in that list is below `n - 1` (`originalRanges.indexOf(range)` on the
distinct freshly-constructed range objects is the iteration index). -/
def buildSelectedAux (doc : String) (n : Nat) :
    Nat → List SRange → String × List SRange
  | _, [] => ("", [])
  | i, r :: rest =>
    let text := getTextInRange doc r
    let acc := buildSelectedAux doc n (i + 1) rest
    if (strTrim text).length > 0 then
      (text ++ (if i < n - 1 then "\n" else "") ++ acc.1, r :: acc.2)
    else
      acc

/-- Selected text and validated ranges computed by the command. -/
def buildSelected (doc : String) (originalRanges : List SRange) :
    String × List SRange :=
  buildSelectedAux doc originalRanges.length 0 originalRanges

/-- The debounced body of the command (lines 110-181) after validation:
supersede any existing session for the URI, write the selected text to the
fresh temp file, and register the new tab. -/
def openSession (reg : Registry) (fs : FileStore) (uri : String)
    (newFileName selectedText : String) (validatedRanges : List SRange) :
    Registry × FileStore × TempTab :=
  let closed :=
    if (registryLookup reg uri).isSome then closeExistingTempTab reg fs uri
    else (reg, fs, none)
  let fs' := (newFileName, selectedText) :: closed.2.1
  let newTab : TempTab :=
    ⟨newFileName, uri, false, false, false, validatedRanges⟩
  (registrySet closed.1 uri newTab, fs', newTab)

/-- The `separate` command (lines 56-184) from the point where the selection
ranges are fixed: validate, reject when nothing non-empty is selected
(lines 98-101), otherwise open the session. -/
def separateCommand (reg : Registry) (fs : FileStore) (uri doc : String)
    (newFileName : String) (originalRanges : List SRange) :
    Option (Registry × FileStore × TempTab) :=
  let sel := buildSelected doc originalRanges
  if sel.2.isEmpty then none
  else some (openSession reg fs uri newFileName sel.1 sel.2)

/-! ## Concrete session states used by several scenarios -/

/-- Open-session state: source `"foo\nbar"` with both lines tracked, after
the user has edited the mirror from `"foo\nbar"` to `"foobar"` (deleting the
separator). -/
def stFooBar : SyncState :=
  ⟨"foo\nbar", "foobar", [⟨⟨0, 0⟩, ⟨0, 3⟩⟩, ⟨⟨1, 0⟩, ⟨1, 3⟩⟩], [], false, false, false⟩

/-- The state produced by running the reverse pass on `stFooBar`. -/
def stFooBarAfter : SyncState :=
  ⟨"foo\nbar", "foobar", [], [], false, false, false⟩

/-- Open-session state for the boundary-insertion scenario: the source was
`"ABCDE"` with `[1,4)` (`"BCD"`) tracked; the user has typed `"X"` at
position 4, so the post-edit source is `"ABCDXE"` and that change is
queued. -/
def stABCDE : SyncState :=
  ⟨"ABCDXE", "BCD", [⟨⟨0, 1⟩, ⟨0, 4⟩⟩], [⟨⟨⟨0, 4⟩, ⟨0, 4⟩⟩, "X", 4, 0⟩],
    false, false, false⟩

/-- The state produced by running the forward pass on `stABCDE`. -/
def stABCDEAfter : SyncState :=
  ⟨"ABCDXE", "BCDX", [⟨⟨0, 1⟩, ⟨0, 5⟩⟩], [], false, false, false⟩

/-- Open-session state in which the user has swapped the mirror's two lines
to `"bar\nfoo"`. -/
def stBarFoo : SyncState :=
  ⟨"foo\nbar", "bar\nfoo", [⟨⟨0, 0⟩, ⟨0, 3⟩⟩, ⟨⟨1, 0⟩, ⟨1, 3⟩⟩], [], false, false, false⟩

/-- The state produced by running the reverse pass on `stBarFoo`: the range
set comes out in descending order. -/
def stBarFooAfter : SyncState :=
  ⟨"foo\nbar", "bar\nfoo", [⟨⟨1, 0⟩, ⟨1, 3⟩⟩, ⟨⟨0, 0⟩, ⟨0, 3⟩⟩], [], false, false, false⟩

/-! ## Supporting lemmas -/

theorem posLe_refl (p : Pos) : posLe p p := by
  unfold posLe; omega

theorem posLe_trans {p q r : Pos} (h₁ : posLe p q) (h₂ : posLe q r) : posLe p r := by
  unfold posLe at *; omega

theorem posLe_of_not_posLe {p q : Pos} (h : ¬ posLe p q) : posLe q p := by
  unfold posLe at *; omega

theorem posLt_of_not_posLe {p q : Pos} (h : ¬ posLe p q) : posLt q p := by
  unfold posLe at h; unfold posLt; omega

theorem posLe_of_posLt {p q : Pos} (h : posLt p q) : posLe p q := by
  unfold posLt at h; unfold posLe; omega

theorem not_posLt_of_posLe {p q : Pos} (h : posLe p q) : ¬ posLt q p := by
  unfold posLe at h; unfold posLt; omega

theorem posLe_posTranslate {p q : Pos} (dl dc : Int) (h : posLe p q) :
    posLe (posTranslate p dl dc) (posTranslate q dl dc) := by
  unfold posLe at *; unfold posTranslate; simp only []; omega

theorem mkRange_valid (a b : Pos) : rangeValid (mkRange a b) := by
  unfold mkRange rangeValid
  by_cases h : posLe a b
  · simp [h]
  · simp [h]; exact posLe_of_not_posLe h

theorem mkRange_of_posLe {a b : Pos} (h : posLe a b) : mkRange a b = ⟨a, b⟩ := by
  unfold mkRange; simp [h]


theorem buildExtractedAux_eq (doc : String) (n : Nat) :
    ∀ (rest : List SRange) (i : Nat), i + rest.length = n →
      buildExtractedAux doc n i rest = specJoin (rest.map (getTextInRange doc))
  | [], _, _ => rfl
  | [r], i, h => by
    have hi : ¬ i < n - 1 := by simp at h; omega
    simp [buildExtractedAux, hi, specJoin]
  | r :: r₂ :: rest, i, h => by
    have hi : i < n - 1 := by simp at h; omega
    have ih := buildExtractedAux_eq doc n (r₂ :: rest) (i + 1) (by simp at h ⊢; omega)
    show getTextInRange doc r ++ (if i < n - 1 then "\n" else "") ++
        buildExtractedAux doc n (i + 1) (r₂ :: rest) = _
    rw [if_pos hi, ih]
    rfl

theorem buildExtractedText_eq (doc : String) (ranges : List SRange) :
    buildExtractedText doc ranges = deriveMirror doc ranges :=
  buildExtractedAux_eq doc ranges.length ranges 0 (by simp)

theorem findCorresponding_eq_find? (doc line : String) :
    ∀ ranges : List SRange,
      findCorresponding doc line ranges
        = List.find? (fun r => strIncludes (getTextInRange doc r) line) ranges
  | [] => rfl
  | r :: rest => by
    by_cases h : strIncludes (getTextInRange doc r) line
    · simp [findCorresponding, List.find?, h]
    · simp only [Bool.not_eq_true] at h
      simp [findCorresponding, List.find?, h, findCorresponding_eq_find? doc line rest]

theorem reverseLoop_eq_filterMap (doc : String) (ranges : List SRange) :
    ∀ lines : List String,
      reverseLoop doc ranges lines =
        (lines.filterMap (fun ln =>
            (List.find? (fun r => strIncludes (getTextInRange doc r) ln) ranges).map
              (fun r => (r, ln))),
         lines.filterMap (fun ln =>
            (List.find? (fun r => strIncludes (getTextInRange doc r) ln) ranges).map
              (fun r => updateReverseRange r ln)))
  | [] => rfl
  | line :: rest => by
    have ih := reverseLoop_eq_filterMap doc ranges rest
    simp only [reverseLoop, findCorresponding_eq_find?, ih, List.filterMap_cons]
    cases List.find? (fun r => strIncludes (getTextInRange doc r) line) ranges with
    | none => rfl
    | some r => rfl

theorem translateRangeForChange_valid (c : PendingChange) (r : SRange) :
    rangeValid (translateRangeForChange c r) := by
  unfold translateRangeForChange
  dsimp only
  split_ifs <;> exact mkRange_valid _ _

theorem foldl_translate_valid :
    ∀ (changes : List PendingChange) (ranges : List SRange),
      (∀ x ∈ ranges, rangeValid x) →
      ∀ x ∈ changes.foldl
          (fun rs c => rs.map (translateRangeForChange c)) ranges, rangeValid x
  | [], _, hr => hr
  | c :: cs, ranges, _ => by
    intro x hx
    refine foldl_translate_valid cs (ranges.map (translateRangeForChange c)) ?_ x hx
    intro y hy
    obtain ⟨z, _, rfl⟩ := List.mem_map.mp hy
    exact translateRangeForChange_valid c z

theorem mergeLoop_invariant :
    ∀ (rest : List SRange) (current : SRange),
      rangeValid current →
      (∀ r ∈ rest, rangeValid r) →
      List.Pairwise startLe (current :: rest) →
      (∀ x ∈ mergeLoop current rest, posLe current.start x.start) ∧
      List.Pairwise rangeDisj (mergeLoop current rest) ∧
      (∀ x ∈ mergeLoop current rest, rangeValid x)
  | [], current, hc, _, _ => by
    refine ⟨?_, ?_, ?_⟩
    · intro x hx
      rw [List.mem_singleton.mp hx]
      exact posLe_refl _
    · exact List.pairwise_singleton _ _
    · intro x hx
      rw [List.mem_singleton.mp hx]
      exact hc
  | next :: rest, current, hc, hrest, hpair => by
    rcases List.pairwise_cons.mp hpair with ⟨h1, h2⟩
    rcases List.pairwise_cons.mp h2 with ⟨h3, h4⟩
    unfold mergeLoop
    by_cases h5 : posLe next.start current.stop
    · rw [if_pos h5]
      dsimp only
      have hnewEnd :
          posLe current.start
            (if posLe next.stop current.stop then current.stop else next.stop) := by
        by_cases h6 : posLe next.stop current.stop
        · rw [if_pos h6]; exact hc
        · rw [if_neg h6]; exact posLe_trans hc (posLe_of_not_posLe h6)
      rw [mkRange_of_posLe hnewEnd]
      have ih := mergeLoop_invariant rest
        ⟨current.start, if posLe next.stop current.stop then current.stop else next.stop⟩
        hnewEnd (fun r hr => hrest r (List.mem_cons_of_mem _ hr))
        (List.pairwise_cons.mpr ⟨fun b hb => h1 b (List.mem_cons_of_mem _ hb), h4⟩)
      exact ih
    · rw [if_neg h5]
      have ih := mergeLoop_invariant rest next (hrest next (List.mem_cons_self _ _))
        (fun r hr => hrest r (List.mem_cons_of_mem _ hr)) h2
      rcases ih with ⟨ihStarts, ihPair, ihValid⟩
      have hgap : posLe current.stop next.start := posLe_of_not_posLe h5
      refine ⟨?_, ?_, ?_⟩
      · intro x hx
        rcases List.mem_cons.mp hx with hx | hx
        · rw [hx]; exact posLe_refl _
        · exact posLe_trans (h1 next (List.mem_cons_self _ _)) (ihStarts x hx)
      · refine List.pairwise_cons.mpr ⟨?_, ihPair⟩
        intro x hx
        exact posLe_trans hgap (ihStarts x hx)
      · intro x hx
        rcases List.mem_cons.mp hx with hx | hx
        · rw [hx]; exact hc
        · exact ihValid x hx

theorem mergeRanges_invariant (l : List SRange)
    (hv : ∀ r ∈ l, rangeValid r) (hs : List.Pairwise startLe l) :
    List.Pairwise rangeDisj (mergeRanges l) ∧
    (∀ x ∈ mergeRanges l, rangeValid x) := by
  cases l with
  | nil => exact ⟨List.Pairwise.nil, by intro x hx; cases hx⟩
  | cons c rest =>
    have h := mergeLoop_invariant rest c (hv c (List.mem_cons_self _ _))
      (fun r hr => hv r (List.mem_cons_of_mem _ hr)) hs
    exact ⟨h.2.1, h.2.2⟩

theorem buildSelectedAux_all_kept (doc : String) (n : Nat) :
    ∀ (rest : List SRange) (i : Nat), i + rest.length = n →
      (∀ r ∈ rest, (strTrim (getTextInRange doc r)).length > 0) →
      buildSelectedAux doc n i rest
        = (specJoin (rest.map (getTextInRange doc)), rest)
  | [], _, _, _ => rfl
  | [r], i, h, hk => by
    have hkr := hk r (List.mem_cons_self _ _)
    have hi : ¬ i < n - 1 := by simp at h; omega
    show (if (strTrim (getTextInRange doc r)).length > 0 then _ else _) = _
    rw [if_pos hkr]
    show (getTextInRange doc r ++ (if i < n - 1 then "\n" else "") ++
      (buildSelectedAux doc n (i + 1) []).1, r :: (buildSelectedAux doc n (i + 1) []).2) = _
    rw [if_neg hi]
    simp [buildSelectedAux, specJoin]
  | r :: r₂ :: rest, i, h, hk => by
    have hkr := hk r (List.mem_cons_self _ _)
    have hi : i < n - 1 := by simp at h; omega
    have ih := buildSelectedAux_all_kept doc n (r₂ :: rest) (i + 1)
      (by simp at h ⊢; omega) (fun x hx => hk x (List.mem_cons_of_mem _ hx))
    show (if (strTrim (getTextInRange doc r)).length > 0 then _ else _) = _
    rw [if_pos hkr]
    show (getTextInRange doc r ++ (if i < n - 1 then "\n" else "") ++
      (buildSelectedAux doc n (i + 1) (r₂ :: rest)).1,
      r :: (buildSelectedAux doc n (i + 1) (r₂ :: rest)).2) = _
    rw [if_pos hi, ih]
    rfl

theorem buildSelectedAux_all_empty (doc : String) (n : Nat) :
    ∀ (rest : List SRange) (i : Nat),
      (∀ r ∈ rest, (strTrim (getTextInRange doc r)).length = 0) →
      buildSelectedAux doc n i rest = ("", [])
  | [], _, _ => rfl
  | r :: rest, i, hk => by
    have hkr := hk r (List.mem_cons_self _ _)
    have ih := buildSelectedAux_all_empty doc n rest (i + 1)
      (fun x hx => hk x (List.mem_cons_of_mem _ hx))
    show (if (strTrim (getTextInRange doc r)).length > 0 then _ else _) = _
    rw [if_neg (by omega)]
    exact ih

theorem find?_fileDelete (n : String) :
    ∀ fs : FileStore,
      List.find? (fun f => f.1 == n) (fileDelete fs n) = none
  | [] => rfl
  | f :: fs => by
    by_cases h : f.1 = n
    · have : (f.1 != n) = false := by simp [h]
      simp only [fileDelete, List.filter_cons, this, Bool.false_eq_true, if_false]
      exact find?_fileDelete n fs
    · have h1 : (f.1 != n) = true := by simp [h]
      have h2 : (f.1 == n) = false := by simp [h]
      simp only [fileDelete, List.filter_cons, h1, if_true]
      rw [List.find?_cons_of_neg _ (by simp [h2])]
      exact find?_fileDelete n fs

/-! ## Claim C1 -/

/-- Claim C1, amended: after every settled forward reconciliation pass that
actually processes pending changes (source open, queue non-empty, buffer
edit applied), the mirror's full text equals the concatenation, in range-set
order, of the source's text at each tracked range joined with a single
newline and none after the last.  The original claim, quantified over all
settled states, fails after reverse passes (see the counterexample). -/
theorem c1_forward_derivation (st st' : SyncState)
    (hclosed : st.sourceClosed = false) (hpend : st.pending ≠ [])
    (h : processPendingChanges st false = .ok st') :
    st'.mirror = deriveMirror st'.source st'.ranges := by
  cases hp : st.pending with
  | nil => exact absurd hp hpend
  | cons a l =>
    unfold processPendingChanges at h
    rw [hclosed, hp] at h
    simp only [List.isEmpty_cons, Bool.false_or, Bool.false_eq_true, if_false,
      Bool.or_false, ite_false, Except.ok.injEq] at h
    subst h
    exact buildExtractedText_eq _ _

/-- Claim C1, counterexample: a settled state of an open session (empty
queue, flag clear) reached by one reverse pass in which the mirror text is
not the derivation over the range set. -/
theorem c1_counterexample :
    extractedToOriginal stFooBar false = .ok stFooBarAfter ∧
    stFooBarAfter.pending = [] ∧ stFooBarAfter.isUpdating = false ∧
    stFooBarAfter.tabClosed = false ∧
    stFooBarAfter.mirror ≠ deriveMirror stFooBarAfter.source stFooBarAfter.ranges :=
  ⟨rfl, rfl, rfl, rfl, by decide⟩

/-- Claim C1, witness: the amended theorem applied to the boundary-insertion
state. -/
theorem c1_witness :
    stABCDE.sourceClosed = false ∧ stABCDE.pending ≠ [] ∧
    stABCDEAfter.mirror = deriveMirror stABCDEAfter.source stABCDEAfter.ranges :=
  ⟨rfl, by decide, c1_forward_derivation stABCDE stABCDEAfter rfl (by decide) rfl⟩

/-! ## Claim C2 -/

/-- Claim C2, amended: in a reverse reconciliation pass each replacement is
produced by content matching, not by ordinal position: whenever the pass
emits the edit `(r, ln)`, the line `ln` is one of the mirror's split lines
and `r` is the first tracked range whose current source text contains `ln`
as a substring. -/
theorem c2_content_match (doc : String) (ranges : List SRange) (mirror : String)
    (r : SRange) (ln : String)
    (h : (r, ln) ∈ (reverseCompute doc ranges mirror).1) :
    ln ∈ splitLines mirror ∧
    List.find? (fun x => strIncludes (getTextInRange doc x) ln) ranges = some r := by
  rw [reverseCompute, reverseLoop_eq_filterMap] at h
  obtain ⟨a, ha, heq⟩ := List.mem_filterMap.mp h
  obtain ⟨x, hfind, hx⟩ := Option.map_eq_some'.mp heq
  obtain ⟨rfl, rfl⟩ := Prod.mk.injEq .. |>.mp hx
  exact ⟨ha, hfind⟩

/-- Claim C2, witness: the amended theorem applied to the single-line mirror
`"bar"` over tracked texts `"foo"` and `"bar"`. -/
theorem c2_witness :
    ("bar" : String) ∈ splitLines "bar" ∧
    List.find? (fun x => strIncludes (getTextInRange "foo\nbar" x) "bar")
        [⟨⟨0, 0⟩, ⟨0, 3⟩⟩, ⟨⟨1, 0⟩, ⟨1, 3⟩⟩] = some ⟨⟨1, 0⟩, ⟨1, 3⟩⟩ :=
  c2_content_match "foo\nbar" [⟨⟨0, 0⟩, ⟨0, 3⟩⟩, ⟨⟨1, 0⟩, ⟨1, 3⟩⟩] "bar"
    ⟨⟨1, 0⟩, ⟨1, 3⟩⟩ "bar" (by decide)

/-- Claim C2, counterexample: with tracked texts `"foo"`, `"bar"` and mirror
text `"bar"`, the 0th split piece is assigned to the second range (found by
substring search), not to the 0th range as positional assignment would
require. -/
theorem c2_counterexample :
    (reverseCompute "foo\nbar" [⟨⟨0, 0⟩, ⟨0, 3⟩⟩, ⟨⟨1, 0⟩, ⟨1, 3⟩⟩] "bar").1
      = [(⟨⟨1, 0⟩, ⟨1, 3⟩⟩, "bar")] ∧
    [((⟨⟨1, 0⟩, ⟨1, 3⟩⟩ : SRange), ("bar" : String))] ≠ [(⟨⟨0, 0⟩, ⟨0, 3⟩⟩, "bar")] :=
  ⟨rfl, by decide⟩

/-! ## Claim C3 -/

/-- Claim C3, amended: the range set produced by a forward translate-merge
pass (`applyChangesToOriginalRanges`) is always sorted and pairwise
non-overlapping, provided the incoming ranges are valid; the original
claim's quantification over reverse passes as well fails (see the
counterexample). -/
theorem c3_forward_disjoint (ranges : List SRange) (changes : List PendingChange)
    (doc : String) (hv : ∀ r ∈ ranges, rangeValid r) :
    List.Pairwise rangeDisj (applyChangesToOriginalRanges ranges changes doc) ∧
    ∀ x ∈ applyChangesToOriginalRanges ranges changes doc, rangeValid x := by
  unfold applyChangesToOriginalRanges
  dsimp only
  apply mergeRanges_invariant
  · intro r hr
    exact foldl_translate_valid changes ranges hv r
      ((List.perm_insertionSort startLe _).mem_iff.mp hr)
  · exact List.sorted_insertionSort startLe _

/-- Claim C3, witness: merging two overlapping ranges yields a disjoint
range set. -/
theorem c3_witness :
    List.Pairwise rangeDisj
      (applyChangesToOriginalRanges [⟨⟨0, 0⟩, ⟨0, 2⟩⟩, ⟨⟨0, 1⟩, ⟨0, 5⟩⟩] [] "") :=
  (c3_forward_disjoint [⟨⟨0, 0⟩, ⟨0, 2⟩⟩, ⟨⟨0, 1⟩, ⟨0, 5⟩⟩] [] "" (by decide)).1

/-- Claim C3, counterexample: a reverse pass whose mirror lines arrive in
swapped order produces a range set that is not sorted (the first range ends
after the second starts), so the invariant does not hold after every
reverse-pass mutation. -/
theorem c3_counterexample :
    extractedToOriginal stBarFoo false = .ok stBarFooAfter ∧
    stBarFooAfter.ranges = [⟨⟨1, 0⟩, ⟨1, 3⟩⟩, ⟨⟨0, 0⟩, ⟨0, 3⟩⟩] ∧
    ¬ List.Pairwise rangeDisj stBarFooAfter.ranges :=
  ⟨rfl, rfl, fun h =>
    absurd ((List.pairwise_cons.mp h).1 _ (List.mem_cons_self _ _)) (by decide)⟩

/-! ## Claim C4 -/

/-- Claim C4, amended: both reconciliation passes clear the reentrancy flag
on the normal exit path (starting from a non-suppressed state), but there is
no finally-equivalent: when the buffer operation after the flag is raised
throws, the exception propagates and the flag stays set (see the
counterexample). -/
theorem c4_flag_cleared_on_success (st st' : SyncState)
    (hflag : st.isUpdating = false) :
    (processPendingChanges st false = .ok st' → st'.isUpdating = false) ∧
    (extractedToOriginal st false = .ok st' → st'.isUpdating = false) := by
  constructor
  · intro h
    unfold processPendingChanges at h
    split at h
    · cases h; exact hflag
    · simp only [Bool.false_eq_true, if_false, ite_false, Except.ok.injEq] at h
      subst h
      rfl
  · intro h
    unfold extractedToOriginal at h
    split at h
    · cases h; exact hflag
    · simp only [Bool.false_eq_true, if_false, ite_false, Except.ok.injEq] at h
      subst h
      rfl

/-- Claim C4, witness: the amended theorem applied to a forward pass and to
a reverse pass on concrete states. -/
theorem c4_witness :
    stABCDE.isUpdating = false ∧ stABCDEAfter.isUpdating = false ∧
    stFooBarAfter.isUpdating = false :=
  ⟨rfl, (c4_flag_cleared_on_success stABCDE stABCDEAfter rfl).1 rfl,
    (c4_flag_cleared_on_success stFooBar stFooBarAfter rfl).2 rfl⟩

/-- Claim C4, counterexample: when the buffer edit throws during either
pass, the pass exits by exception with the reentrancy flag still set, so the
flag is not cleared on every exit path. -/
theorem c4_counterexample :
    processPendingChanges
        ⟨"ab", "a", [⟨⟨0, 0⟩, ⟨0, 1⟩⟩], [⟨⟨⟨0, 0⟩, ⟨0, 0⟩⟩, "x", 0, 0⟩],
          false, false, false⟩ true
      = .error ⟨"ab", "a", [⟨⟨0, 0⟩, ⟨0, 1⟩⟩], [], true, false, false⟩ ∧
    (⟨"ab", "a", [⟨⟨0, 0⟩, ⟨0, 1⟩⟩], [], true, false, false⟩ : SyncState).isUpdating
      = true ∧
    extractedToOriginal ⟨"ab", "a", [⟨⟨0, 0⟩, ⟨0, 1⟩⟩], [], false, false, false⟩ true
      = .error ⟨"ab", "a", [⟨⟨0, 0⟩, ⟨0, 1⟩⟩], [], true, false, false⟩ :=
  ⟨rfl, rfl, rfl⟩

/-! ## Claim C5 -/

/-- Claim C5, amended: when splitting the mirror yields fewer pieces than
there are tracked ranges because a separator was deleted, the merged piece
is not absorbed by the leading range; a piece that is a substring of no
tracked range's text is silently dropped: the pass completes without error,
applies no edit for it, leaves the source unchanged, and removes the
unmatched ranges from the range set (here: all of them). -/
theorem c5_unmatched_dropped :
    extractedToOriginal stFooBar false = .ok stFooBarAfter ∧
    (reverseCompute stFooBar.source stFooBar.ranges stFooBar.mirror).1 = [] ∧
    stFooBarAfter.source = stFooBar.source ∧ stFooBarAfter.ranges = [] :=
  ⟨rfl, rfl, rfl, rfl⟩

/-- Claim C5, counterexample: in the `"foo\nbar"` to `"foobar"` scenario the
pass emits no replacement at all — in particular not `"foobar"` for the
first range — and the source stays `"foo\nbar"` instead of becoming
`"foobar\n"` as the claimed absorption would produce. -/
theorem c5_counterexample :
    (reverseCompute "foo\nbar" [⟨⟨0, 0⟩, ⟨0, 3⟩⟩, ⟨⟨1, 0⟩, ⟨1, 3⟩⟩] "foobar").1 = [] ∧
    ([] : List (SRange × String)) ≠ [(⟨⟨0, 0⟩, ⟨0, 3⟩⟩, "foobar")] ∧
    extractedToOriginal stFooBar false = .ok stFooBarAfter ∧
    stFooBarAfter.source = "foo\nbar" ∧ ("foo\nbar" : String) ≠ "foobar\n" :=
  ⟨rfl, by decide, rfl, rfl, by decide⟩

/-! ## Claim C6 -/

/-- Claim C6, amended: in the forward translate, a pending change shifts
both endpoints of a tracked range by the edit's net line/column delta only
when the edit region ends strictly before the range's start
(`E.end < S.start`, not `E.end ≤ S.start`: a touching edit falls into the
grow branch, see the counterexample); and a range is left unchanged when the
edit region starts strictly after the range's end. -/
theorem c6_translate_outside (c : PendingChange) (r : SRange)
    (hrv : rangeValid r) (hcv : rangeValid c.range) :
    (posLt c.range.stop r.start →
      translateRangeForChange c r =
        ⟨posTranslate r.start
            ((countNL c.text : Int) - (c.range.stop.line - c.range.start.line))
            ((c.text.length : Int) - (c.range.stop.character - c.range.start.character)),
          posTranslate r.stop
            ((countNL c.text : Int) - (c.range.stop.line - c.range.start.line))
            ((c.text.length : Int) - (c.range.stop.character - c.range.start.character))⟩) ∧
    (posLt r.stop c.range.start → translateRangeForChange c r = r) := by
  constructor
  · intro hlt
    unfold translateRangeForChange
    dsimp only
    rw [if_neg (fun hcon => absurd hlt (not_posLt_of_posLe hcon.2)), if_pos hlt]
    exact mkRange_of_posLe (posLe_posTranslate _ _ hrv)
  · intro hlt
    have hA : ¬ (posLe c.range.start r.stop ∧ posLe r.start c.range.stop) :=
      fun hcon => absurd hlt (not_posLt_of_posLe hcon.1)
    have hB : ¬ posLt c.range.stop r.start := by
      unfold rangeValid at hrv hcv
      unfold posLe at hrv hcv
      unfold posLt at hlt ⊢
      omega
    unfold translateRangeForChange
    dsimp only
    rw [if_neg hA, if_neg hB, mkRange_of_posLe hrv]

/-- Claim C6, witness: a one-character deletion strictly left of a range
shifts both endpoints by minus one column, and an edit strictly right of a
range leaves it unchanged. -/
theorem c6_witness :
    translateRangeForChange ⟨⟨⟨0, 0⟩, ⟨0, 1⟩⟩, "", 0, 1⟩ ⟨⟨0, 2⟩, ⟨0, 3⟩⟩
      = ⟨⟨0, 1⟩, ⟨0, 2⟩⟩ ∧
    translateRangeForChange ⟨⟨⟨0, 5⟩, ⟨0, 6⟩⟩, "", 5, 1⟩ ⟨⟨0, 0⟩, ⟨0, 1⟩⟩
      = ⟨⟨0, 0⟩, ⟨0, 1⟩⟩ :=
  ⟨(c6_translate_outside ⟨⟨⟨0, 0⟩, ⟨0, 1⟩⟩, "", 0, 1⟩ ⟨⟨0, 2⟩, ⟨0, 3⟩⟩
      (by decide) (by decide)).1 (by decide),
    (c6_translate_outside ⟨⟨⟨0, 5⟩, ⟨0, 6⟩⟩, "", 5, 1⟩ ⟨⟨0, 0⟩, ⟨0, 1⟩⟩
      (by decide) (by decide)).2 (by decide)⟩

/-- Claim C6, counterexample: inserting `"X"` at `(0,1)`, whose edit region
ends exactly at the range `[(0,1),(0,4))`'s start (`E.end = S.start`, so
`E.end ≤ S.start` holds), does not shift the range to `[(0,2),(0,5))` as the
claim requires: the code takes the overlap branch and collapses the range to
`[(0,1),(0,2))`. -/
theorem c6_counterexample :
    applyChangesToOriginalRanges [⟨⟨0, 1⟩, ⟨0, 4⟩⟩]
        [⟨⟨⟨0, 1⟩, ⟨0, 1⟩⟩, "X", 1, 0⟩] "ABCDE"
      = [⟨⟨0, 1⟩, ⟨0, 2⟩⟩] ∧
    [(⟨⟨0, 1⟩, ⟨0, 2⟩⟩ : SRange)] ≠ [⟨⟨0, 2⟩, ⟨0, 5⟩⟩] :=
  ⟨rfl, by decide⟩

/-! ## Claim C7 -/

/-- Claim C7, amended: an edit that overlaps or touches a tracked range is
handled by the grow branch: the start moves to the edit's start when the
edit extends past it (as claimed); the new end, however, is always the
edit's end translated in the character coordinate — by the full text length
when the edit extends past the range's end, and by the text length minus the
edit's character width otherwise (not the range's end translated by the
text-length delta, see the counterexample).  The claim's concrete example
holds: for source `"ABCDE"` with span `[1,4)`, inserting `"X"` at position 4
grows the span to `[1,5)` and the mirror becomes `"BCDX"`. -/
theorem c7_grow (c : PendingChange) (r : SRange) (hcv : rangeValid c.range)
    (h1 : posLe c.range.start r.stop) (h2 : posLe r.start c.range.stop) :
    translateRangeForChange c r =
      ⟨(if posLt c.range.start r.start then c.range.start else r.start),
        (if posLt r.stop c.range.stop then
          posTranslate c.range.stop 0 (c.text.length : Int)
        else
          posTranslate c.range.stop 0
            ((c.text.length : Int) - (c.range.stop.character - c.range.start.character)))⟩ ∧
    processPendingChanges stABCDE false = .ok stABCDEAfter ∧
    stABCDEAfter.ranges = [⟨⟨0, 1⟩, ⟨0, 5⟩⟩] ∧ stABCDEAfter.mirror = "BCDX" := by
  refine ⟨?_, rfl, rfl, rfl⟩
  have hns : posLe (if posLt c.range.start r.start then c.range.start else r.start)
      (if posLt r.stop c.range.stop then
        posTranslate c.range.stop 0 (c.text.length : Int)
      else
        posTranslate c.range.stop 0
          ((c.text.length : Int) - (c.range.stop.character - c.range.start.character))) := by
    unfold rangeValid at hcv
    by_cases ha : posLt c.range.start r.start <;>
      by_cases hb : posLt r.stop c.range.stop <;>
        simp only [ha, hb, if_true, if_false, ite_true, ite_false] <;>
          (unfold posLe posLt posTranslate at *; dsimp only; omega)
  unfold translateRangeForChange
  dsimp only
  rw [if_pos ⟨h1, h2⟩]
  exact mkRange_of_posLe hns

/-- Claim C7, witness: the amended theorem applied to the boundary insertion
at the span's end. -/
theorem c7_witness :
    translateRangeForChange ⟨⟨⟨0, 4⟩, ⟨0, 4⟩⟩, "X", 4, 0⟩ ⟨⟨0, 1⟩, ⟨0, 4⟩⟩
      = ⟨⟨0, 1⟩, ⟨0, 5⟩⟩ :=
  (c7_grow ⟨⟨⟨0, 4⟩, ⟨0, 4⟩⟩, "X", 4, 0⟩ ⟨⟨0, 1⟩, ⟨0, 4⟩⟩
    (by decide) (by decide) (by decide)).1

/-- Claim C7, counterexample: inserting `"X"` strictly inside the range
`[(0,1),(0,4))` at `(0,2)` is an overlapping edit not extending past either
boundary, so per the claim the end should be translated by the text-length
delta to `(0,5)`; the code instead translates the change's end, collapsing
the range to `[(0,1),(0,3))`. -/
theorem c7_counterexample :
    applyChangesToOriginalRanges [⟨⟨0, 1⟩, ⟨0, 4⟩⟩]
        [⟨⟨⟨0, 2⟩, ⟨0, 2⟩⟩, "X", 2, 0⟩] "ABCDE"
      = [⟨⟨0, 1⟩, ⟨0, 3⟩⟩] ∧
    [(⟨⟨0, 1⟩, ⟨0, 3⟩⟩ : SRange)] ≠ [⟨⟨0, 1⟩, ⟨0, 5⟩⟩] :=
  ⟨rfl, by decide⟩

/-! ## Claim C8 -/

/-- Claim C8, amended: the command rejects (no mirror is created) when the
selection is empty or every selected range is empty of content; and when
every selected range is non-empty of content the selected text equals the
Mirror Content Derivation over the (then unchanged) validated ranges.  When
a trailing range is dropped as empty, however, the seeded content keeps a
trailing separator and differs from the derivation over the kept ranges
(see the counterexample), because the separator is decided by position in
the pre-validation list. -/
theorem c8_open_validation (doc : String) (ranges : List SRange)
    (reg : Registry) (fs : FileStore) (uri fn : String) :
    ((∀ r ∈ ranges, (strTrim (getTextInRange doc r)).length = 0) →
      separateCommand reg fs uri doc fn ranges = none) ∧
    ((∀ r ∈ ranges, (strTrim (getTextInRange doc r)).length > 0) →
      buildSelected doc ranges = (deriveMirror doc ranges, ranges)) := by
  constructor
  · intro hk
    have h0 : buildSelected doc ranges = ("", []) :=
      buildSelectedAux_all_empty doc ranges.length ranges 0 hk
    simp [separateCommand, h0]
  · intro hk
    exact buildSelectedAux_all_kept doc ranges.length ranges 0 (by simp) hk

/-- Claim C8, witness: a whitespace-only selection is rejected, and a fully
non-empty two-range selection seeds exactly the derivation. -/
theorem c8_witness :
    separateCommand [] [] "u" "  " "t" [⟨⟨0, 0⟩, ⟨0, 2⟩⟩] = none ∧
    buildSelected "ab\ncd" [⟨⟨0, 0⟩, ⟨0, 2⟩⟩, ⟨⟨1, 0⟩, ⟨1, 2⟩⟩]
      = (deriveMirror "ab\ncd" [⟨⟨0, 0⟩, ⟨0, 2⟩⟩, ⟨⟨1, 0⟩, ⟨1, 2⟩⟩],
          [⟨⟨0, 0⟩, ⟨0, 2⟩⟩, ⟨⟨1, 0⟩, ⟨1, 2⟩⟩]) :=
  ⟨(c8_open_validation "  " [⟨⟨0, 0⟩, ⟨0, 2⟩⟩] [] [] "u" "t").1 (by decide),
    (c8_open_validation "ab\ncd" [⟨⟨0, 0⟩, ⟨0, 2⟩⟩, ⟨⟨1, 0⟩, ⟨1, 2⟩⟩]
      [] [] "u" "t").2 (by decide)⟩

/-- Claim C8, counterexample: selecting `"foo"` followed by a whitespace-only
trailing range writes `"foo\n"` to the mirror file — the derivation over the
validated ranges is `"foo"`, so the created content is not exactly the
derivation. -/
theorem c8_counterexample :
    buildSelected "foo  " [⟨⟨0, 0⟩, ⟨0, 3⟩⟩, ⟨⟨0, 3⟩, ⟨0, 5⟩⟩]
      = ("foo\n", [⟨⟨0, 0⟩, ⟨0, 3⟩⟩]) ∧
    separateCommand [] [] "u" "foo  " "t" [⟨⟨0, 0⟩, ⟨0, 3⟩⟩, ⟨⟨0, 3⟩, ⟨0, 5⟩⟩]
      = some ([("u", ⟨"t", "u", false, false, false, [⟨⟨0, 0⟩, ⟨0, 3⟩⟩]⟩)],
          [("t", "foo\n")], ⟨"t", "u", false, false, false, [⟨⟨0, 0⟩, ⟨0, 3⟩⟩]⟩) ∧
    ("foo\n" : String) ≠ deriveMirror "foo  " [⟨⟨0, 0⟩, ⟨0, 3⟩⟩] :=
  ⟨rfl, rfl, by decide⟩

/-! ## Claim C9 -/

/-- Claim C9: opening a second session for a source buffer that already has
an open one closes the first rather than erroring: the superseded tab comes
back disposed (its listeners no longer fire) and marked closed, the registry
afterwards maps the URI to the freshly created tab, and the old tab's
backing file is no longer present in the store. -/
theorem c9_supersession (reg : Registry) (fs : FileStore) (uri : String)
    (old : TempTab) (fn sel : String) (vr : List SRange)
    (hold : registryLookup reg uri = some old) (hopen : old.isClosed = false)
    (hfn : fn ≠ old.tempFileName) :
    (closeExistingTempTab reg fs uri).2.2
      = some { old with disposed := true, isClosed := true } ∧
    registryLookup (openSession reg fs uri fn sel vr).1 uri
      = some ⟨fn, uri, false, false, false, vr⟩ ∧
    List.find? (fun f => f.1 == old.tempFileName)
      (openSession reg fs uri fn sel vr).2.1 = none := by
  refine ⟨?_, ?_, ?_⟩
  · unfold closeExistingTempTab
    rw [hold]
    simp only [hopen, Bool.false_eq_true, if_false, ite_false]
  · unfold openSession registrySet registryLookup
    dsimp only
    rw [List.find?_cons_of_pos _ (by simp)]
    rfl
  · unfold openSession
    rw [hold]
    simp only [Option.isSome_some, ite_true]
    unfold closeExistingTempTab
    rw [hold]
    simp only [hopen, Bool.false_eq_true, if_false, ite_false]
    rw [List.find?_cons_of_neg _ (by simp [hfn])]
    exact find?_fileDelete old.tempFileName fs

/-- Claim C9, witness: the supersession theorem applied to a one-entry
registry and store. -/
theorem c9_witness :
    (closeExistingTempTab [("u", ⟨"old", "u", false, false, false, []⟩)]
        [("old", "x")] "u").2.2
      = some ⟨"old", "u", true, false, true, []⟩ ∧
    registryLookup
        (openSession [("u", ⟨"old", "u", false, false, false, []⟩)]
          [("old", "x")] "u" "new" "s" []).1 "u"
      = some ⟨"new", "u", false, false, false, []⟩ ∧
    List.find? (fun f => f.1 == "old")
        (openSession [("u", ⟨"old", "u", false, false, false, []⟩)]
          [("old", "x")] "u" "new" "s" []).2.1 = none :=
  c9_supersession [("u", ⟨"old", "u", false, false, false, []⟩)] [("old", "x")]
    "u" ⟨"old", "u", false, false, false, []⟩ "new" "s" [] rfl rfl (by decide)

/-! ## Claim C10 -/

/-- Claim C10: the reverse pass is exactly a first-match content filter: its
edit list assigns to each mirror line the first tracked range whose current
source text contains it, its new range set has exactly one (updated) entry
per matched line, and a line matching no tracked range contributes neither
an edit nor a range — it is silently discarded. -/
theorem c10_reverse_by_content (doc : String) (ranges : List SRange) (mirror : String) :
    reverseCompute doc ranges mirror =
      ((splitLines mirror).filterMap (fun ln =>
          (List.find? (fun r => strIncludes (getTextInRange doc r) ln) ranges).map
            (fun r => (r, ln))),
       (splitLines mirror).filterMap (fun ln =>
          (List.find? (fun r => strIncludes (getTextInRange doc r) ln) ranges).map
            (fun r => updateReverseRange r ln))) :=
  reverseLoop_eq_filterMap doc ranges (splitLines mirror)
